import Mathlib

/-!
# rocWMMA: opaque store and the load/store test driver

A shallow embedding of `library/include/rocwmma/internal/opaque_store.hpp`
and of the host driver in `test/LoadStoreMatrixSyncTest.cpp`.

* Device memory reachable from `dataPtr` is a function from element offsets
  (relative to `dataPtr`) to elements.
* A register vector `VecT<DataT, n>` is a function from element indices to
  elements; its length is carried by `IOTraits`.
* `IOTraits`, `MatrixLayout` and `DataLayout` are template parameters of
  `OpaqueStore`; their headers (`io_traits.hpp`, `layout.hpp`) are not part of
  the sources at hand, so they enter the embedding as records of the static
  members that `OpaqueStore::exec` uses.
-/

namespace rocwmma

/-! ## Template parameters of `OpaqueStore` -/

/-- The constants of `IOTraits<BlockDim, BlockK, DataT, VectorWidth>` that
`OpaqueStore` reads: the width of one transaction, the number of elements a
thread holds, and the number of transactions per thread. -/
structure IOTraits where
  VectorWidth : Nat
  UnpackedSize : Nat
  IOCount : Nat
deriving DecidableEq, Repr

/-- The static members of the `MatrixLayout` template parameter, as seen by one
lane: `baseOffset()` and `incrementalOffset(iteration)`, both in the coordinate
type `C`. -/
structure MatrixLayout (C : Type) where
  baseOffset : C
  incrementalOffset : Nat → C

/-- The static member of the `DataLayout` template parameter:
`fromMatrixCoord(coord, ldm)`, the element offset of a matrix coordinate, as it
reaches the `offset` parameter of the storer. -/
structure DataLayout (C : Type) where
  fromMatrixCoord : C → Nat → Nat

/-! ## The register vector and its strided iterator -/

/-- Modelled from the spec: the vector iterator of `types.hpp` (not among the
sources) returned by `data.cbegin<VectorWidth>()`. It is a position counted in
units of `VectorWidth` elements, starting at 0. -/
structure VecIterator where
  idx : Nat
deriving DecidableEq, Repr

/-- Modelled from the spec: `cbegin<VectorWidth>()` of the missing `VecT`,
the iterator at the first slice. -/
def VecIterator.cbegin : VecIterator := ⟨0⟩

/-- Modelled from the spec: `it.index()` of the missing iterator, the number
of the slice the iterator stands on. -/
def VecIterator.index (it : VecIterator) : Nat := it.idx

/-- Modelled from the spec: `*it` of the missing iterator, the
`VectorWidth`-element view of buffer slice `it.index()`. -/
def VecIterator.deref {α : Type} (VectorWidth : Nat) (data : Nat → α)
    (it : VecIterator) : Nat → α :=
  fun k => data (it.idx * VectorWidth + k)

/-- Modelled from the spec: `it++` of the missing iterator. -/
def VecIterator.next (it : VecIterator) : VecIterator := ⟨it.idx + 1⟩

/-- Modelled from the spec: `decltype(it)::range()` of the missing iterator,
the number of `VectorWidth`-wide slices in a vector of `size` elements. -/
def VecIterator.range (size VectorWidth : Nat) : Nat := size / VectorWidth

/-! ## `detail::amdgcn_opaque_store` -/

/-- The storer `detail::amdgcn_opaque_store<DataT, VectorWidth>::exec(dataPtr, data, offset)`:
one vector store, `*reinterpret_cast<StoreT*>(&(dataPtr[offset])) = data`.
The `VectorWidth` elements of `data` land on `dataPtr[offset .. offset + VectorWidth)`. -/
def amdgcn_opaque_store.exec {α : Type} (VectorWidth : Nat) (dataPtr : Nat → α)
    (data : Nat → α) (offset : Nat) : Nat → α :=
  fun p => if offset ≤ p ∧ p < offset + VectorWidth then data (p - offset) else dataPtr p

/-! ## `OpaqueStore` -/

/-- A record of one call of `Traits::Storer::exec`: the offset it was given and
the iterator index of the slice it carried. Kept as history only. -/
structure Transaction where
  offset : Nat
  index : Nat
deriving DecidableEq, Repr

/-- The buffer element indices viewed by the slice a transaction carries. -/
def Transaction.elements (VectorWidth : Nat) (t : Transaction) : List Nat :=
  List.range' (t.index * VectorWidth) VectorWidth

/-- Everything `OpaqueStore::exec` can see while its loop runs: the memory
behind `dataPtr`, the input vector `data`, the locals `baseOffset` and `it`,
and the history of the stores issued so far. -/
structure StoreState (α C : Type) where
  dataPtr : Nat → α
  data : Nat → α
  baseOffset : C
  it : VecIterator
  issued : List Transaction

/-- The two static assertions that guard an instantiation of `OpaqueStore`:
`VectorWidth > 0` and `decltype(it)::range() == IOTraits::IOCount`. -/
def OpaqueStore.static_asserts (T : IOTraits) : Prop :=
  0 < T.VectorWidth ∧ VecIterator.range T.UnpackedSize T.VectorWidth = T.IOCount

instance (T : IOTraits) : Decidable (OpaqueStore.static_asserts T) :=
  inferInstanceAs (Decidable (_ ∧ _))

/-- One pass through the body of the loop of `OpaqueStore::exec`. -/
def OpaqueStore.body {α C : Type} [Add C] (T : IOTraits) (ML : MatrixLayout C)
    (DL : DataLayout C) (ldm : Nat) (s : StoreState α C) : StoreState α C :=
  { dataPtr := amdgcn_opaque_store.exec T.VectorWidth s.dataPtr
      (s.it.deref T.VectorWidth s.data) (DL.fromMatrixCoord s.baseOffset ldm)
    data := s.data
    baseOffset := s.baseOffset + ML.incrementalOffset s.it.index
    it := s.it.next
    issued := s.issued ++ [⟨DL.fromMatrixCoord s.baseOffset ldm, s.it.index⟩] }

/-- The loop `for(auto i = 0; i < IOTraits::IOCount; ++i)`, by the number of
passes still to run. The body never reads `i`; started with `IOCount` it makes
`IOCount` passes. -/
def OpaqueStore.loop {α C : Type} [Add C] (T : IOTraits) (ML : MatrixLayout C)
    (DL : DataLayout C) (ldm : Nat) : Nat → StoreState α C → StoreState α C
  | 0, s => s
  | n + 1, s => OpaqueStore.loop T ML DL ldm n (OpaqueStore.body T ML DL ldm s)

/-- The state in which `OpaqueStore::exec(dataPtr, data, ldm)` returns. -/
def OpaqueStore.execState {α C : Type} [Add C] (T : IOTraits) (ML : MatrixLayout C)
    (DL : DataLayout C) (dataPtr : Nat → α) (data : Nat → α) (ldm : Nat) :
    StoreState α C :=
  OpaqueStore.loop T ML DL ldm T.IOCount
    { dataPtr := dataPtr
      data := data
      baseOffset := ML.baseOffset
      it := VecIterator.cbegin
      issued := [] }

/-- The call `OpaqueStore::exec(dataPtr, data, ldm)`: the memory behind
`dataPtr` when the call returns. -/
def OpaqueStore.exec {α C : Type} [Add C] (T : IOTraits) (ML : MatrixLayout C)
    (DL : DataLayout C) (dataPtr : Nat → α) (data : Nat → α) (ldm : Nat) : Nat → α :=
  (OpaqueStore.execState T ML DL dataPtr data ldm).dataPtr

/-! ## The coordinate and offset sequences of the specification -/

/-- The coordinate of transaction `i`: `coord 0 = baseOffset()` and
`coord (i+1) = coord i + incrementalOffset(i)`. -/
def coord {C : Type} [Add C] (ML : MatrixLayout C) : Nat → C
  | 0 => ML.baseOffset
  | i + 1 => coord ML i + ML.incrementalOffset i

/-- The offset of transaction `i`: `fromMatrixCoord(coord i, ldm)`. -/
def off {C : Type} [Add C] (ML : MatrixLayout C) (DL : DataLayout C) (ldm : Nat)
    (i : Nat) : Nat :=
  DL.fromMatrixCoord (coord ML i) ldm

/-- The memory after the first `n` transactions of the specification: store
slice `i` of the buffer at `off i`, for `i = 0, .., n - 1` in this order. -/
def storeSeq {α C : Type} [Add C] (T : IOTraits) (ML : MatrixLayout C)
    (DL : DataLayout C) (dataPtr : Nat → α) (data : Nat → α) (ldm : Nat) : Nat → Nat → α
  | 0 => dataPtr
  | n + 1 => amdgcn_opaque_store.exec T.VectorWidth (storeSeq T ML DL dataPtr data ldm n)
      (fun k => data (n * T.VectorWidth + k)) (off ML DL ldm n)

/-- Offset `p` lies in the range `[off i, off i + VectorWidth)` of transaction `i`. -/
def inRange {C : Type} [Add C] (T : IOTraits) (ML : MatrixLayout C) (DL : DataLayout C)
    (ldm : Nat) (i p : Nat) : Prop :=
  off ML DL ldm i ≤ p ∧ p < off ML DL ldm i + T.VectorWidth

instance {C : Type} [Add C] (T : IOTraits) (ML : MatrixLayout C) (DL : DataLayout C)
    (ldm i p : Nat) : Decidable (inRange T ML DL ldm i p) :=
  inferInstanceAs (Decidable (_ ∧ _))

/-! ## The load that mirrors the store -/

/-- Modelled from the spec: `detail::amdgcn_opaque_load::exec` of
`opaque_load.hpp` (not among the sources), one vector load: the `VectorWidth`
contiguous elements at `dataPtr[offset]`. -/
def amdgcn_opaque_load.exec {α : Type} (dataPtr : Nat → α) (offset : Nat) : Nat → α :=
  fun k => dataPtr (offset + k)

/-- Modelled from the spec: assignment through the missing iterator,
`*it = v`, which overwrites buffer slice `it.index()` with the
`VectorWidth` elements of `v`. -/
def VecIterator.assign {α : Type} (VectorWidth : Nat) (data : Nat → α)
    (it : VecIterator) (v : Nat → α) : Nat → α :=
  fun e =>
    if it.idx * VectorWidth ≤ e ∧ e < it.idx * VectorWidth + VectorWidth then
      v (e - it.idx * VectorWidth)
    else data e

/-- Modelled from the spec: what `OpaqueLoad::exec` of `opaque_load.hpp` (not
among the sources) can see while its loop runs: the memory behind `dataPtr`,
the buffer `data` being filled, and the locals `baseOffset` and `it`. -/
structure LoadState (α C : Type) where
  dataPtr : Nat → α
  data : Nat → α
  baseOffset : C
  it : VecIterator

/-- Modelled from the spec: one pass of the loop of `OpaqueLoad::exec` of
`opaque_load.hpp` (not among the sources), the mirror of the store: read
`VectorWidth` contiguous elements from `dataPtr[offset]` into buffer slice `i`,
then advance the coordinate and the iterator. -/
def OpaqueLoad.body {α C : Type} [Add C] (T : IOTraits) (ML : MatrixLayout C)
    (DL : DataLayout C) (ldm : Nat) (s : LoadState α C) : LoadState α C :=
  { dataPtr := s.dataPtr
    data := s.it.assign T.VectorWidth s.data
      (amdgcn_opaque_load.exec s.dataPtr (DL.fromMatrixCoord s.baseOffset ldm))
    baseOffset := s.baseOffset + ML.incrementalOffset s.it.index
    it := s.it.next }

/-- Modelled from the spec: the loop of `OpaqueLoad::exec` of `opaque_load.hpp`
(not among the sources), by the number of passes still to run. -/
def OpaqueLoad.loop {α C : Type} [Add C] (T : IOTraits) (ML : MatrixLayout C)
    (DL : DataLayout C) (ldm : Nat) : Nat → LoadState α C → LoadState α C
  | 0, s => s
  | n + 1, s => OpaqueLoad.loop T ML DL ldm n (OpaqueLoad.body T ML DL ldm s)

/-- Modelled from the spec: `OpaqueLoad::exec` of `opaque_load.hpp` (not among
the sources): the thread-local buffer when the load returns. It iterates
`IOCount` times from `baseOffset()`. -/
def OpaqueLoad.exec {α C : Type} [Add C] (T : IOTraits) (ML : MatrixLayout C)
    (DL : DataLayout C) (dataPtr : Nat → α) (data : Nat → α) (ldm : Nat) : Nat → α :=
  (OpaqueLoad.loop T ML DL ldm T.IOCount
    { dataPtr := dataPtr
      data := data
      baseOffset := ML.baseOffset
      it := VecIterator.cbegin }).data

/-- The buffer after the first `n` loads of the specification: slice `i` holds
the `VectorWidth` elements found at `off i`, for every `i < n`. -/
def loadSeq {α C : Type} [Add C] (T : IOTraits) (ML : MatrixLayout C)
    (DL : DataLayout C) (dataPtr : Nat → α) (data : Nat → α) (ldm : Nat) : Nat → Nat → α
  | 0 => data
  | n + 1 => VecIterator.assign T.VectorWidth (loadSeq T ML DL dataPtr data ldm n) ⟨n⟩
      (amdgcn_opaque_load.exec dataPtr (off ML DL ldm n))

/-! ## Fill -/

/-- Modelled from the spec: `fill_fragment(frag, value)` of the public API (not
among the sources), which populates every element of the thread-local fragment
buffer, `UnpackedSize` of them, with the scalar and touches no memory. -/
def fill_fragment {α : Type} (T : IOTraits) (frag : Nat → α) (value : α) : Nat → α :=
  fun e => if e < T.UnpackedSize then value else frag e

/-! ## Coordinates and the two data layouts -/

/-- Modelled from the spec: the coordinate of `layout.hpp` (not among the
sources), an unsigned (row, col) pair in matrix space. -/
structure Coord where
  row : Nat
  col : Nat
deriving DecidableEq, Repr

/-- Reduction of a natural number to an unsigned 32-bit value. -/
def u32 (n : Nat) : Nat := n % 4294967296

/-- Modelled from the spec: the addition of coordinates of `layout.hpp` (not
among the sources) used by `baseOffset += incrementalOffset(i)`: component by
component, each component an unsigned 32-bit value. -/
instance : Add Coord := ⟨fun a b => ⟨u32 (a.row + b.row), u32 (a.col + b.col)⟩⟩

/-- The data layouts the test driver instantiates: the types `row_major` and
`col_major`. -/
inductive Layout where
  | row_major
  | col_major
deriving DecidableEq, Repr

/-- Modelled from the spec: `DataLayout::fromMatrixCoord` of `layout.hpp` (not
among the sources). Row-major: `offset = row * ld + col`. Column-major:
`offset = col * ld + row`. -/
def Layout.fromMatrixCoord : Layout → Coord → Nat → Nat
  | .row_major, c, ld => c.row * ld + c.col
  | .col_major, c, ld => c.col * ld + c.row

/-- The same offset computed in unsigned 32-bit arithmetic: the product and
the sum are each reduced modulo `2^32`. -/
def Layout.fromMatrixCoord_u32 : Layout → Coord → Nat → Nat
  | .row_major, c, ld => u32 (u32 (c.row * ld) + c.col)
  | .col_major, c, ld => u32 (u32 (c.col * ld) + c.row)

/-- A layout of the driver as the `DataLayout` template argument of `OpaqueStore`. -/
def Layout.dataLayout (L : Layout) : DataLayout Coord := ⟨L.fromMatrixCoord⟩

/-- The fast index of the coordinate is below the leading dimension: the
column for row-major, the row for column-major. -/
def Layout.inLd : Layout → Coord → Nat → Prop
  | .row_major, c, ld => c.col < ld
  | .col_major, c, ld => c.row < ld

instance (L : Layout) (c : Coord) (ld : Nat) : Decidable (L.inLd c ld) := by
  cases L <;> exact inferInstanceAs (Decidable (_ < _))

/-! ## The host driver `test_load_store_matrix_h` -/

/-- Leading dimension of A: `is_same<LayoutA, row_major> ? K : M`. -/
def lda (LayoutA : Layout) (M _N K : Nat) : Nat :=
  if LayoutA = Layout.row_major then K else M

/-- Leading dimension of B: `is_same<LayoutB, row_major> ? N : K`. -/
def ldb (LayoutB : Layout) (_M N K : Nat) : Nat :=
  if LayoutB = Layout.row_major then N else K

/-- Leading dimension of C: `is_same<LayoutC, row_major> ? N : M`. -/
def ldc (LayoutC : Layout) (M N _K : Nat) : Nat :=
  if LayoutC = Layout.row_major then N else M

/-- Element count of `matrixA` and `matrixA_r`: `std::vector<DataT>(M * K)`,
the product taken in `uint32_t`. -/
def sizeA (M _N K : Nat) : Nat := u32 (M * K)

/-- Element count of `matrixB` and `matrixB_r`: `std::vector<DataT>(K * N)`,
the product taken in `uint32_t`. -/
def sizeB (_M N K : Nat) : Nat := u32 (K * N)

/-- Element count of `matrixC` and `matrixC_r`: `std::vector<DataT>(M * N)`,
the product taken in `uint32_t`. -/
def sizeC (M N _K : Nat) : Nat := u32 (M * N)

/-- Modelled from the spec: `AMDGCN_WAVE_SIZE` of `Constants.h` (not among the
sources), the number of lanes of a wave. -/
def AMDGCN_WAVE_SIZE : Nat := 64

/-- Modelled from the spec: `ceilDiv` of `Utils.h` (not among the sources),
the quotient rounded up. -/
def ceilDiv (numerator divisor : Nat) : Nat := (numerator + divisor - 1) / divisor

/-- One call `test_load_store_matrix_h<TBlockX, TBlockY, BlockM, BlockN, BlockK, DataT>(M, N, K)`. -/
structure Config where
  TBlockX : Nat
  TBlockY : Nat
  BlockM : Nat
  BlockN : Nat
  BlockK : Nat
  M : Nat
  N : Nat
  K : Nat
deriving DecidableEq, Repr

/-- The calls made by `test_load_store_matrix_h<DataT>()`, in source order. -/
def test_load_store_matrix_h.configs : List Config := [
    ⟨64, 1, 16, 16, 16, 16, 16, 16⟩, ⟨64, 1, 16, 16, 16, 32, 32, 32⟩,
    ⟨64, 1, 16, 16, 16, 64, 64, 64⟩, ⟨64, 1, 16, 16, 16, 128, 128, 128⟩,
    ⟨64, 1, 16, 16, 16, 256, 256, 256⟩, ⟨64, 2, 16, 16, 16, 32, 32, 32⟩,
    ⟨64, 2, 16, 16, 16, 64, 64, 64⟩, ⟨64, 2, 16, 16, 16, 128, 128, 128⟩,
    ⟨64, 2, 16, 16, 16, 256, 256, 256⟩, ⟨64, 4, 16, 16, 16, 64, 64, 64⟩,
    ⟨64, 4, 16, 16, 16, 128, 128, 128⟩, ⟨64, 4, 16, 16, 16, 256, 256, 256⟩,
    ⟨64, 8, 16, 16, 16, 128, 128, 128⟩, ⟨64, 8, 16, 16, 16, 256, 256, 256⟩,
    ⟨64, 16, 16, 16, 16, 256, 256, 256⟩, ⟨128, 1, 16, 16, 16, 32, 32, 32⟩,
    ⟨128, 1, 16, 16, 16, 64, 64, 64⟩, ⟨128, 1, 16, 16, 16, 128, 128, 128⟩,
    ⟨128, 1, 16, 16, 16, 256, 256, 256⟩, ⟨128, 2, 16, 16, 16, 64, 64, 64⟩,
    ⟨128, 2, 16, 16, 16, 128, 128, 128⟩, ⟨128, 2, 16, 16, 16, 256, 256, 256⟩,
    ⟨128, 4, 16, 16, 16, 128, 128, 128⟩, ⟨128, 4, 16, 16, 16, 256, 256, 256⟩,
    ⟨128, 8, 16, 16, 16, 256, 256, 256⟩, ⟨256, 1, 16, 16, 16, 64, 64, 64⟩,
    ⟨256, 1, 16, 16, 16, 128, 128, 128⟩, ⟨256, 1, 16, 16, 16, 256, 256, 256⟩,
    ⟨256, 2, 16, 16, 16, 128, 128, 128⟩, ⟨256, 2, 16, 16, 16, 256, 256, 256⟩,
    ⟨256, 4, 16, 16, 16, 256, 256, 256⟩, ⟨512, 1, 16, 16, 16, 128, 128, 128⟩,
    ⟨512, 1, 16, 16, 16, 256, 256, 256⟩, ⟨512, 2, 16, 16, 16, 256, 256, 256⟩,
    ⟨64, 1, 32, 32, 32, 32, 32, 32⟩, ⟨64, 1, 32, 32, 32, 64, 64, 64⟩,
    ⟨64, 1, 32, 32, 32, 128, 128, 128⟩, ⟨64, 1, 32, 32, 32, 256, 256, 256⟩,
    ⟨64, 2, 32, 32, 32, 64, 64, 64⟩, ⟨64, 2, 32, 32, 32, 128, 128, 128⟩,
    ⟨64, 2, 32, 32, 32, 256, 256, 256⟩, ⟨64, 4, 32, 32, 32, 128, 128, 128⟩,
    ⟨64, 4, 32, 32, 32, 256, 256, 256⟩, ⟨64, 8, 32, 32, 32, 256, 256, 256⟩,
    ⟨128, 1, 32, 32, 32, 64, 64, 64⟩, ⟨128, 1, 32, 32, 32, 128, 128, 128⟩,
    ⟨128, 1, 32, 32, 32, 256, 256, 256⟩, ⟨128, 2, 32, 32, 32, 128, 128, 128⟩,
    ⟨128, 2, 32, 32, 32, 256, 256, 256⟩, ⟨128, 4, 32, 32, 32, 256, 256, 256⟩,
    ⟨256, 1, 32, 32, 32, 128, 128, 128⟩, ⟨256, 1, 32, 32, 32, 256, 256, 256⟩,
    ⟨256, 2, 32, 32, 32, 256, 256, 256⟩, ⟨512, 1, 32, 32, 32, 256, 256, 256⟩,
    ⟨64, 1, 64, 64, 64, 64, 64, 64⟩, ⟨64, 1, 64, 64, 64, 128, 128, 128⟩,
    ⟨64, 1, 64, 64, 64, 256, 256, 256⟩, ⟨64, 2, 64, 64, 64, 128, 128, 128⟩,
    ⟨64, 2, 64, 64, 64, 256, 256, 256⟩, ⟨64, 4, 64, 64, 64, 256, 256, 256⟩,
    ⟨128, 1, 64, 64, 64, 128, 128, 128⟩, ⟨128, 1, 64, 64, 64, 256, 256, 256⟩,
    ⟨128, 2, 64, 64, 64, 256, 256, 256⟩, ⟨256, 1, 64, 64, 64, 256, 256, 256⟩,
    ⟨256, 1, 64, 64, 64, 512, 128, 8192⟩]

/-- The last call of `test_load_store_matrix_h<DataT>()`: 256 x 1 threads,
block 64 x 64 x 64, non-square large-K matrix sizes. -/
def test_load_store_matrix_h.largeK : Config := ⟨256, 1, 64, 64, 64, 512, 128, 8192⟩

/-- The launch grid:
`dim3(ceilDiv(M, BlockM * TBlockX / AMDGCN_WAVE_SIZE), ceilDiv(N, BlockN * TBlockY))`. -/
def Config.gridDim (c : Config) : Nat × Nat :=
  (ceilDiv c.M (u32 (c.BlockM * c.TBlockX) / AMDGCN_WAVE_SIZE),
   ceilDiv c.N (u32 (c.BlockN * c.TBlockY)))

/-- The thread block: `dim3(TBlockX, TBlockY)`. -/
def Config.blockDim (c : Config) : Nat × Nat := (c.TBlockX, c.TBlockY)

/-- The number of waves of a launch: blocks in the grid times waves per block. -/
def Config.waves (c : Config) : Nat :=
  c.gridDim.1 * c.gridDim.2 * (c.blockDim.1 / AMDGCN_WAVE_SIZE) * c.blockDim.2

/-- The launch stores at least as many elements of A, B and C as the complete
output matrices hold. -/
def Config.roundTripsWhole (c : Config) : Prop :=
  c.waves * c.BlockM * c.BlockK ≥ c.M * c.K ∧
  c.waves * c.BlockK * c.BlockN ≥ c.K * c.N ∧
  c.waves * c.BlockM * c.BlockN ≥ c.M * c.N

instance (c : Config) : Decidable c.roundTripsWhole :=
  inferInstanceAs (Decidable (_ ∧ _ ∧ _))

/-! ## A small instantiation -/

/-- Two transactions of two elements each over a four-element buffer. -/
def sampleTraits : IOTraits := ⟨2, 4, 2⟩

/-- A lane that starts at the origin and moves one row down per transaction. -/
def sampleLayout : MatrixLayout Coord := ⟨⟨0, 0⟩, fun _ => ⟨1, 0⟩⟩

/-- A memory of zeros. -/
def sampleMemory : Nat → Nat := fun _ => 0

/-- A buffer holding 10, 11, 12, ... -/
def sampleData : Nat → Nat := fun e => e + 10

/-- The lane of `sampleLayout` with another increment after the first
transaction: one row down after transaction 0, seven rows and seven columns
after every later one. -/
def sampleLayoutAlt : MatrixLayout Coord :=
  ⟨⟨0, 0⟩, fun i => if i = 0 then ⟨1, 0⟩ else ⟨7, 7⟩⟩

/-! ## Properties of the store loop -/

section StoreLoop

variable {α C : Type} [Add C]

theorem OpaqueStore.loop_succ_right (T : IOTraits) (ML : MatrixLayout C) (DL : DataLayout C)
    (ldm n : Nat) (s : StoreState α C) :
    OpaqueStore.loop T ML DL ldm (n + 1) s
      = OpaqueStore.body T ML DL ldm (OpaqueStore.loop T ML DL ldm n s) := by
  induction n generalizing s with
  | zero => rfl
  | succ n ih =>
    show OpaqueStore.loop T ML DL ldm (n + 1) (OpaqueStore.body T ML DL ldm s) = _
    rw [ih]
    rfl

/-- The state after `n` passes of the loop, field by field. -/
theorem OpaqueStore.loop_init (T : IOTraits) (ML : MatrixLayout C) (DL : DataLayout C)
    (dataPtr data : Nat → α) (ldm n : Nat) :
    OpaqueStore.loop T ML DL ldm n
        { dataPtr := dataPtr, data := data, baseOffset := ML.baseOffset,
          it := VecIterator.cbegin, issued := [] }
      = { dataPtr := storeSeq T ML DL dataPtr data ldm n
          data := data
          baseOffset := coord ML n
          it := ⟨n⟩
          issued := (List.range n).map (fun i => ⟨off ML DL ldm i, i⟩) } := by
  induction n with
  | zero => rfl
  | succ n ih =>
    rw [OpaqueStore.loop_succ_right, ih]
    simp only [OpaqueStore.body, VecIterator.deref, VecIterator.index, VecIterator.next,
      storeSeq, off, coord, List.range_succ, List.map_append, List.map_cons, List.map_nil]
    rfl

theorem OpaqueStore.exec_eq_storeSeq (T : IOTraits) (ML : MatrixLayout C) (DL : DataLayout C)
    (dataPtr data : Nat → α) (ldm : Nat) :
    OpaqueStore.exec T ML DL dataPtr data ldm = storeSeq T ML DL dataPtr data ldm T.IOCount := by
  simp only [OpaqueStore.exec, OpaqueStore.execState, OpaqueStore.loop_init]

/-- Offsets outside every range keep their value. -/
theorem storeSeq_frame (T : IOTraits) (ML : MatrixLayout C) (DL : DataLayout C)
    (dataPtr data : Nat → α) (ldm n p : Nat)
    (hout : ∀ i, i < n → ¬ inRange T ML DL ldm i p) :
    storeSeq T ML DL dataPtr data ldm n p = dataPtr p := by
  induction n with
  | zero => rfl
  | succ n ih =>
    have hn : ¬ (off ML DL ldm n ≤ p ∧ p < off ML DL ldm n + T.VectorWidth) :=
      hout n (Nat.lt_succ_self n)
    have hrec := ih (fun i hi => hout i (Nat.lt_succ_of_lt hi))
    simp only [storeSeq, amdgcn_opaque_store.exec]
    rw [if_neg hn]
    exact hrec

/-- The value at an offset is the one carried by the last transaction whose
range holds it. -/
theorem storeSeq_last (T : IOTraits) (ML : MatrixLayout C) (DL : DataLayout C)
    (dataPtr data : Nat → α) (ldm n i p : Nat) (hi : i < n)
    (hin : inRange T ML DL ldm i p)
    (hlater : ∀ j, i < j → j < n → ¬ inRange T ML DL ldm j p) :
    storeSeq T ML DL dataPtr data ldm n p
      = data (i * T.VectorWidth + (p - off ML DL ldm i)) := by
  induction n with
  | zero => exact absurd hi (Nat.not_lt_zero i)
  | succ n ih =>
    simp only [storeSeq, amdgcn_opaque_store.exec]
    rcases Nat.lt_succ_iff_lt_or_eq.mp hi with hlt | heq
    · have hn : ¬ (off ML DL ldm n ≤ p ∧ p < off ML DL ldm n + T.VectorWidth) :=
        hlater n hlt (Nat.lt_succ_self n)
      rw [if_neg hn]
      exact ih hlt (fun j hij hj => hlater j hij (Nat.lt_succ_of_lt hj))
    · subst heq
      have hin' : off ML DL ldm i ≤ p ∧ p < off ML DL ldm i + T.VectorWidth := hin
      rw [if_pos hin']

/-- When every slice agrees with `f` on its range, every written offset holds
the value of `f`. -/
theorem storeSeq_agree (T : IOTraits) (ML : MatrixLayout C) (DL : DataLayout C)
    (dataPtr data : Nat → α) (f : Nat → α) (ldm n p : Nat)
    (hdata : ∀ i k, i < n → k < T.VectorWidth →
      data (i * T.VectorWidth + k) = f (off ML DL ldm i + k))
    (hin : ∃ i, i < n ∧ inRange T ML DL ldm i p) :
    storeSeq T ML DL dataPtr data ldm n p = f p := by
  induction n with
  | zero =>
    obtain ⟨i, hi, _⟩ := hin
    exact absurd hi (Nat.not_lt_zero i)
  | succ n ih =>
    simp only [storeSeq, amdgcn_opaque_store.exec]
    by_cases hn : off ML DL ldm n ≤ p ∧ p < off ML DL ldm n + T.VectorWidth
    · rw [if_pos hn]
      obtain ⟨h1, h2⟩ := hn
      have hk : p - off ML DL ldm n < T.VectorWidth := by omega
      rw [hdata n _ (Nat.lt_succ_self n) hk]
      congr 1
      omega
    · rw [if_neg hn]
      obtain ⟨i, hi, hip⟩ := hin
      have hlt : i < n := by
        rcases Nat.lt_succ_iff_lt_or_eq.mp hi with hlt | heq
        · exact hlt
        · subst heq; exact absurd hip hn
      exact ih (fun i k hi hk => hdata i k (Nat.lt_succ_of_lt hi) hk) ⟨i, hlt, hip⟩

end StoreLoop

/-! ## Properties of the load loop -/

section LoadLoop

variable {α C : Type} [Add C]

theorem OpaqueLoad.load_loop_succ_right (T : IOTraits) (ML : MatrixLayout C) (DL : DataLayout C)
    (ldm n : Nat) (s : LoadState α C) :
    OpaqueLoad.loop T ML DL ldm (n + 1) s
      = OpaqueLoad.body T ML DL ldm (OpaqueLoad.loop T ML DL ldm n s) := by
  induction n generalizing s with
  | zero => rfl
  | succ n ih =>
    show OpaqueLoad.loop T ML DL ldm (n + 1) (OpaqueLoad.body T ML DL ldm s) = _
    rw [ih]
    rfl

/-- The state after `n` passes of the load loop, field by field. -/
theorem OpaqueLoad.load_loop_init (T : IOTraits) (ML : MatrixLayout C) (DL : DataLayout C)
    (dataPtr data : Nat → α) (ldm n : Nat) :
    OpaqueLoad.loop T ML DL ldm n
        { dataPtr := dataPtr, data := data, baseOffset := ML.baseOffset,
          it := VecIterator.cbegin }
      = { dataPtr := dataPtr
          data := loadSeq T ML DL dataPtr data ldm n
          baseOffset := coord ML n
          it := ⟨n⟩ } := by
  induction n with
  | zero => rfl
  | succ n ih =>
    rw [OpaqueLoad.load_loop_succ_right, ih]
    rfl

theorem OpaqueLoad.exec_eq_loadSeq (T : IOTraits) (ML : MatrixLayout C) (DL : DataLayout C)
    (dataPtr data : Nat → α) (ldm : Nat) :
    OpaqueLoad.exec T ML DL dataPtr data ldm = loadSeq T ML DL dataPtr data ldm T.IOCount := by
  simp only [OpaqueLoad.exec, OpaqueLoad.load_loop_init]

/-- Slice `i` of the loaded buffer holds the elements found at `off i`. -/
theorem loadSeq_slice (T : IOTraits) (ML : MatrixLayout C) (DL : DataLayout C)
    (dataPtr data : Nat → α) (ldm n i k : Nat) (hi : i < n) (hk : k < T.VectorWidth) :
    loadSeq T ML DL dataPtr data ldm n (i * T.VectorWidth + k)
      = dataPtr (off ML DL ldm i + k) := by
  induction n with
  | zero => exact absurd hi (Nat.not_lt_zero i)
  | succ n ih =>
    simp only [loadSeq, VecIterator.assign, amdgcn_opaque_load.exec]
    rcases Nat.lt_succ_iff_lt_or_eq.mp hi with hlt | heq
    · have hmul : (i + 1) * T.VectorWidth ≤ n * T.VectorWidth :=
        Nat.mul_le_mul_right _ (Nat.succ_le_of_lt hlt)
      rw [Nat.succ_mul] at hmul
      have hout : ¬ (n * T.VectorWidth ≤ i * T.VectorWidth + k
          ∧ i * T.VectorWidth + k < n * T.VectorWidth + T.VectorWidth) := by omega
      rw [if_neg hout]
      exact ih hlt
    · subst heq
      have hin : i * T.VectorWidth ≤ i * T.VectorWidth + k
          ∧ i * T.VectorWidth + k < i * T.VectorWidth + T.VectorWidth := by omega
      rw [if_pos hin, Nat.add_sub_cancel_left]

end LoadLoop

/-! ## Store: slices land on their offsets -/

section StoreProperties

variable {α C : Type} [Add C]

/-- C1: when the `IOCount` ranges `[off i, off i + VectorWidth)` are pairwise
disjoint, then after `OpaqueStore::exec`, for every `i < IOCount` and every
`k < VectorWidth`, the memory at `off i + k` holds `data[i * VectorWidth + k]`. -/
theorem OpaqueStore.exec_writes_slices (T : IOTraits) (ML : MatrixLayout C)
    (DL : DataLayout C) (dataPtr data : Nat → α) (ldm : Nat)
    (hdisj : ∀ i, i < T.IOCount → ∀ j, j < T.IOCount → i ≠ j →
      ∀ p, ¬ (inRange T ML DL ldm i p ∧ inRange T ML DL ldm j p)) :
    ∀ i, i < T.IOCount → ∀ k, k < T.VectorWidth →
      OpaqueStore.exec T ML DL dataPtr data ldm (off ML DL ldm i + k)
        = data (i * T.VectorWidth + k) := by
  intro i hi k hk
  have hin : inRange T ML DL ldm i (off ML DL ldm i + k) :=
    ⟨Nat.le_add_right _ _, Nat.add_lt_add_left hk _⟩
  rw [OpaqueStore.exec_eq_storeSeq,
    storeSeq_last T ML DL dataPtr data ldm T.IOCount i _ hi hin
      (fun j hij hj hjn => hdisj i hi j hj (Nat.ne_of_lt hij) _ ⟨hin, hjn⟩),
    Nat.add_sub_cancel_left]

/-- C2: load a buffer from memory `X`, then store it with the same traits and
leading dimension. Stored into any output memory `Y`, the output equals `X` at
every offset `off i + k` with `i < IOCount`, `k < VectorWidth`; stored back into
`X` itself, the memory is `X` again. -/
theorem load_store_round_trip (T : IOTraits) (ML : MatrixLayout C) (DL : DataLayout C)
    (X Y data : Nat → α) (ldm : Nat) :
    (∀ i, i < T.IOCount → ∀ k, k < T.VectorWidth →
      OpaqueStore.exec T ML DL Y (OpaqueLoad.exec T ML DL X data ldm) ldm
        (off ML DL ldm i + k) = X (off ML DL ldm i + k))
    ∧ OpaqueStore.exec T ML DL X (OpaqueLoad.exec T ML DL X data ldm) ldm = X := by
  have hbuf : ∀ i k, i < T.IOCount → k < T.VectorWidth →
      OpaqueLoad.exec T ML DL X data ldm (i * T.VectorWidth + k) = X (off ML DL ldm i + k) := by
    intro i k hi hk
    rw [OpaqueLoad.exec_eq_loadSeq]
    exact loadSeq_slice T ML DL X data ldm T.IOCount i k hi hk
  refine ⟨?_, ?_⟩
  · intro i hi k hk
    rw [OpaqueStore.exec_eq_storeSeq]
    exact storeSeq_agree T ML DL Y _ X ldm T.IOCount _ hbuf
      ⟨i, hi, Nat.le_add_right _ _, Nat.add_lt_add_left hk _⟩
  · funext p
    rw [OpaqueStore.exec_eq_storeSeq]
    by_cases hp : ∃ i, i < T.IOCount ∧ inRange T ML DL ldm i p
    · exact storeSeq_agree T ML DL X _ X ldm T.IOCount p hbuf hp
    · exact storeSeq_frame T ML DL X _ ldm T.IOCount p
        (fun i hi hin => hp ⟨i, hi, hin⟩)

/-- C4: `OpaqueStore::exec` returns with the input buffer as it was, and with
every memory element outside all the ranges `[off i, off i + VectorWidth)`,
`i < IOCount`, as it was. Memory and buffer are all the state there is. -/
theorem OpaqueStore.exec_frame (T : IOTraits) (ML : MatrixLayout C) (DL : DataLayout C)
    (dataPtr data : Nat → α) (ldm : Nat) :
    (OpaqueStore.execState T ML DL dataPtr data ldm).data = data
    ∧ ∀ p, (∀ i, i < T.IOCount → ¬ inRange T ML DL ldm i p) →
        (OpaqueStore.execState T ML DL dataPtr data ldm).dataPtr p = dataPtr p := by
  refine ⟨?_, ?_⟩
  · simp only [OpaqueStore.execState, OpaqueStore.loop_init]
  · intro p hp
    have h := OpaqueStore.exec_eq_storeSeq T ML DL dataPtr data ldm
    simp only [OpaqueStore.exec] at h
    rw [h]
    exact storeSeq_frame T ML DL dataPtr data ldm T.IOCount p hp

/-- A filled buffer stored through any data layout leaves the scalar on every
written offset. -/
theorem fill_then_store_any (T : IOTraits)
    (hsize : T.IOCount * T.VectorWidth = T.UnpackedSize)
    (ML : MatrixLayout C) (DL : DataLayout C) (dataPtr frag : Nat → α) (v : α) (ldm : Nat)
    (i k : Nat) (hi : i < T.IOCount) (hk : k < T.VectorWidth) :
    OpaqueStore.exec T ML DL dataPtr (fill_fragment T frag v) ldm (off ML DL ldm i + k) = v := by
  rw [OpaqueStore.exec_eq_storeSeq]
  refine storeSeq_agree T ML DL dataPtr _ (fun _ => v) ldm T.IOCount _ ?_
    ⟨i, hi, Nat.le_add_right _ _, Nat.add_lt_add_left hk _⟩
  intro j l hj hl
  have hmul : (j + 1) * T.VectorWidth ≤ T.IOCount * T.VectorWidth :=
    Nat.mul_le_mul_right _ (Nat.succ_le_of_lt hj)
  rw [Nat.succ_mul] at hmul
  have hlt : j * T.VectorWidth + l < T.UnpackedSize := by omega
  simp only [fill_fragment, if_pos hlt]

end StoreProperties

/-- C5: in an instantiation whose buffer is exactly its `IOCount` slices
(`IOCount * VectorWidth == UnpackedSize`), fill the fragment buffer with the
scalar `v` (`fill_fragment`), then store it with `OpaqueStore::exec`: every
memory element the store writes, at `off i + k` with `i < IOCount` and
`k < VectorWidth`, equals `v`, for the row-major and for the column-major data
layout alike. -/
theorem fill_then_store (T : IOTraits)
    (hsize : T.IOCount * T.VectorWidth = T.UnpackedSize)
    (ML : MatrixLayout Coord) (L : Layout) {α : Type} (dataPtr frag : Nat → α) (v : α)
    (ldm : Nat) :
    ∀ i, i < T.IOCount → ∀ k, k < T.VectorWidth →
      OpaqueStore.exec T ML L.dataLayout dataPtr (fill_fragment T frag v) ldm
        (off ML L.dataLayout ldm i + k) = v :=
  fun i hi k hk => fill_then_store_any T hsize ML L.dataLayout dataPtr frag v ldm i k hi hk

/-! ## The data layouts -/

/-- With the fast index below `ld`, the pair can be read back from `slow * ld + fast`. -/
theorem mul_add_inj (ld a b c d : Nat) (hb : b < ld) (hd : d < ld)
    (h : a * ld + b = c * ld + d) : a = c ∧ b = d := by
  have hac : a = c := by
    rcases Nat.lt_trichotomy a c with h1 | h1 | h1
    · have h2 := Nat.mul_le_mul_right ld (Nat.succ_le_of_lt h1)
      rw [Nat.succ_mul] at h2
      omega
    · exact h1
    · have h2 := Nat.mul_le_mul_right ld (Nat.succ_le_of_lt h1)
      rw [Nat.succ_mul] at h2
      omega
  subst hac
  exact ⟨rfl, by omega⟩

/-- An in-range coordinate of a `rows x cols` matrix with `ld` at least the
fast extent has its offset below `slow extent * ld`. -/
theorem mul_add_lt (ld n a b : Nat) (ha : a < n) (hb : b < ld) : a * ld + b < n * ld := by
  have h := Nat.mul_le_mul_right ld (Nat.succ_le_of_lt ha)
  rw [Nat.succ_mul] at h
  omega

/-- C6: for a fixed leading dimension `ld` and coordinates in range (fast index
below `ld`), two distinct coordinates have two distinct linear offsets, for
row-major `row * ld + col` and for column-major `col * ld + row`. -/
theorem Layout.fromMatrixCoord_injective (L : Layout) (ld : Nat) (c1 c2 : Coord)
    (h1 : L.inLd c1 ld) (h2 : L.inLd c2 ld) (hne : c1 ≠ c2) :
    L.fromMatrixCoord c1 ld ≠ L.fromMatrixCoord c2 ld := by
  intro heq
  apply hne
  obtain ⟨r1, k1⟩ := c1
  obtain ⟨r2, k2⟩ := c2
  cases L with
  | row_major =>
    obtain ⟨hr, hk⟩ := mul_add_inj ld r1 k1 r2 k2 h1 h2 heq
    rw [hr, hk]
  | col_major =>
    obtain ⟨hk, hr⟩ := mul_add_inj ld k1 r1 k2 r2 h1 h2 heq
    rw [hr, hk]

/-- The 32-bit computation of an offset is exact as soon as the exact offset
fits in 32 bits. -/
theorem Layout.fromMatrixCoord_u32_eq (L : Layout) (c : Coord) (ld : Nat)
    (h : L.fromMatrixCoord c ld < 4294967296) :
    L.fromMatrixCoord_u32 c ld = L.fromMatrixCoord c ld := by
  cases L with
  | row_major =>
    simp only [Layout.fromMatrixCoord] at h
    have h1 : c.row * ld < 4294967296 := by omega
    simp only [Layout.fromMatrixCoord_u32, Layout.fromMatrixCoord, u32,
      Nat.mod_eq_of_lt h1, Nat.mod_eq_of_lt h]
  | col_major =>
    simp only [Layout.fromMatrixCoord] at h
    have h1 : c.col * ld < 4294967296 := by omega
    simp only [Layout.fromMatrixCoord_u32, Layout.fromMatrixCoord, u32,
      Nat.mod_eq_of_lt h1, Nat.mod_eq_of_lt h]

/-! ## The host driver: leading dimensions and buffer sizes -/

/-- Every coordinate of the `M x K` matrix A has its offset below `M * K`. -/
theorem offsetA_lt (L : Layout) (M N K row col : Nat) (hr : row < M) (hc : col < K) :
    L.fromMatrixCoord ⟨row, col⟩ (lda L M N K) < M * K := by
  cases L with
  | row_major => exact mul_add_lt K M row col hr hc
  | col_major =>
    rw [Nat.mul_comm M K]
    exact mul_add_lt M K col row hc hr

/-- Every coordinate of the `K x N` matrix B has its offset below `K * N`. -/
theorem offsetB_lt (L : Layout) (M N K row col : Nat) (hr : row < K) (hc : col < N) :
    L.fromMatrixCoord ⟨row, col⟩ (ldb L M N K) < K * N := by
  cases L with
  | row_major => exact mul_add_lt N K row col hr hc
  | col_major =>
    rw [Nat.mul_comm K N]
    exact mul_add_lt K N col row hc hr

/-- Every coordinate of the `M x N` matrix C has its offset below `M * N`. -/
theorem offsetC_lt (L : Layout) (M N K row col : Nat) (hr : row < M) (hc : col < N) :
    L.fromMatrixCoord ⟨row, col⟩ (ldc L M N K) < M * N := by
  cases L with
  | row_major => exact mul_add_lt N M row col hr hc
  | col_major =>
    rw [Nat.mul_comm M N]
    exact mul_add_lt M N col row hc hr

/-- C7, as the driver behaves when an element count wraps: coordinate (1, 1)
of the row-major `65536 x 65537` matrix A has offset 65538, while
`std::vector<DataT>(M * K)` holds `65536 * 65537 mod 2^32 = 65536` elements. -/
theorem driver_offsets_in_bounds_counterexample :
    (1 < 65536 ∧ 1 < 65537) ∧
    Layout.fromMatrixCoord Layout.row_major ⟨1, 1⟩ (lda Layout.row_major 65536 1 65537) = 65538 ∧
    sizeA 65536 1 65537 = 65536 ∧
    ¬ (Layout.fromMatrixCoord Layout.row_major ⟨1, 1⟩ (lda Layout.row_major 65536 1 65537)
        < sizeA 65536 1 65537) := by
  decide

/-- C7, amended: when the element counts `M * K`, `K * N` and `M * N` fit in
32 bits, then with the leading dimensions the driver chooses, every coordinate
of A, of B and of C has an offset at least 0 and below the allocated element
count, whatever the layout of each matrix. -/
theorem driver_offsets_in_bounds (LayoutA LayoutB LayoutC : Layout) (M N K : Nat)
    (hA : M * K < 4294967296) (hB : K * N < 4294967296) (hC : M * N < 4294967296) :
    (∀ row col, row < M → col < K →
      0 ≤ LayoutA.fromMatrixCoord ⟨row, col⟩ (lda LayoutA M N K)
      ∧ LayoutA.fromMatrixCoord ⟨row, col⟩ (lda LayoutA M N K) < sizeA M N K)
    ∧ (∀ row col, row < K → col < N →
      0 ≤ LayoutB.fromMatrixCoord ⟨row, col⟩ (ldb LayoutB M N K)
      ∧ LayoutB.fromMatrixCoord ⟨row, col⟩ (ldb LayoutB M N K) < sizeB M N K)
    ∧ (∀ row col, row < M → col < N →
      0 ≤ LayoutC.fromMatrixCoord ⟨row, col⟩ (ldc LayoutC M N K)
      ∧ LayoutC.fromMatrixCoord ⟨row, col⟩ (ldc LayoutC M N K) < sizeC M N K) := by
  refine ⟨?_, ?_, ?_⟩
  · intro row col hr hc
    refine ⟨Nat.zero_le _, ?_⟩
    simp only [sizeA, u32, Nat.mod_eq_of_lt hA]
    exact offsetA_lt LayoutA M N K row col hr hc
  · intro row col hr hc
    refine ⟨Nat.zero_le _, ?_⟩
    simp only [sizeB, u32, Nat.mod_eq_of_lt hB]
    exact offsetB_lt LayoutB M N K row col hr hc
  · intro row col hr hc
    refine ⟨Nat.zero_le _, ?_⟩
    simp only [sizeC, u32, Nat.mod_eq_of_lt hC]
    exact offsetC_lt LayoutC M N K row col hr hc

/-- C9: for `(M, N, K) = (16, 16, 16)` and for `(M, N, K) = (512, 128, 8192)`,
with the leading dimensions the driver chooses, the offset of every in-range
coordinate of A, B and C computed in unsigned 32-bit arithmetic equals its
exact value, for row-major and for column-major. -/
theorem driver_offsets_no_overflow (LayoutA LayoutB LayoutC : Layout) (M N K : Nat)
    (hcfg : (M, N, K) = (16, 16, 16) ∨ (M, N, K) = (512, 128, 8192)) :
    (∀ row col, row < M → col < K →
      LayoutA.fromMatrixCoord_u32 ⟨row, col⟩ (lda LayoutA M N K)
        = LayoutA.fromMatrixCoord ⟨row, col⟩ (lda LayoutA M N K))
    ∧ (∀ row col, row < K → col < N →
      LayoutB.fromMatrixCoord_u32 ⟨row, col⟩ (ldb LayoutB M N K)
        = LayoutB.fromMatrixCoord ⟨row, col⟩ (ldb LayoutB M N K))
    ∧ (∀ row col, row < M → col < N →
      LayoutC.fromMatrixCoord_u32 ⟨row, col⟩ (ldc LayoutC M N K)
        = LayoutC.fromMatrixCoord ⟨row, col⟩ (ldc LayoutC M N K)) := by
  have hbound : M * K < 4294967296 ∧ K * N < 4294967296 ∧ M * N < 4294967296 := by
    rcases hcfg with h | h
    · simp only [Prod.mk.injEq] at h
      obtain ⟨hM, hN, hK⟩ := h
      subst hM hN hK
      decide
    · simp only [Prod.mk.injEq] at h
      obtain ⟨hM, hN, hK⟩ := h
      subst hM hN hK
      decide
  obtain ⟨hA, hB, hC⟩ := hbound
  refine ⟨?_, ?_, ?_⟩
  · intro row col hr hc
    exact Layout.fromMatrixCoord_u32_eq _ _ _
      (Nat.lt_trans (offsetA_lt LayoutA M N K row col hr hc) hA)
  · intro row col hr hc
    exact Layout.fromMatrixCoord_u32_eq _ _ _
      (Nat.lt_trans (offsetB_lt LayoutB M N K row col hr hc) hB)
  · intro row col hr hc
    exact Layout.fromMatrixCoord_u32_eq _ _ _
      (Nat.lt_trans (offsetC_lt LayoutC M N K row col hr hc) hC)

/-! ## The transactions issued by the store -/

section Issued

variable {α C : Type} [Add C]

/-- The history of the store: transaction `i` at `off i`, for `i` from 0 up. -/
theorem OpaqueStore.issued_eq (T : IOTraits) (ML : MatrixLayout C) (DL : DataLayout C)
    (dataPtr data : Nat → α) (ldm : Nat) :
    (OpaqueStore.execState T ML DL dataPtr data ldm).issued
      = (List.range T.IOCount).map (fun i => (⟨off ML DL ldm i, i⟩ : Transaction)) := by
  simp only [OpaqueStore.execState, OpaqueStore.loop_init]

/-- The slices of the first `n` transactions, laid end to end, are the first
`n * VectorWidth` buffer indices in order. -/
theorem elements_flatten (VectorWidth : Nat) (o : Nat → Nat) (n : Nat) :
    (((List.range n).map (fun i => (⟨o i, i⟩ : Transaction))).map
        (Transaction.elements VectorWidth)).flatten
      = List.range (n * VectorWidth) := by
  induction n with
  | zero => simp
  | succ n ih =>
    rw [List.range_succ, List.map_append, List.map_append, List.flatten_append, ih]
    simp only [List.map_cons, List.map_nil, List.flatten_cons, List.flatten_nil,
      List.append_nil, Transaction.elements, List.range_eq_range']
    have h := List.range'_append 0 (n * VectorWidth) VectorWidth 1
    simp only [Nat.zero_add, Nat.one_mul] at h
    rw [h, Nat.succ_mul, Nat.add_comm]

end Issued

/-- C8: in an instantiation where the static assertions hold and
`IOCount * VectorWidth == UnpackedSize`, `OpaqueStore::exec` issues exactly
`IOCount` transactions, in ascending index order, transaction `i` carries the
buffer elements `[i * VectorWidth, (i + 1) * VectorWidth)`, and each of the
`UnpackedSize` buffer elements is handed to exactly one transaction. -/
theorem OpaqueStore.exec_issues_each_element_once {α C : Type} [Add C] (T : IOTraits)
    (ML : MatrixLayout C) (DL : DataLayout C) (dataPtr data : Nat → α) (ldm : Nat)
    (hasserts : OpaqueStore.static_asserts T)
    (hsize : T.IOCount * T.VectorWidth = T.UnpackedSize) :
    (OpaqueStore.execState T ML DL dataPtr data ldm).issued.length = T.IOCount
    ∧ (∀ i, i < T.IOCount →
        (OpaqueStore.execState T ML DL dataPtr data ldm).issued[i]?
          = some ⟨off ML DL ldm i, i⟩
        ∧ Transaction.elements T.VectorWidth ⟨off ML DL ldm i, i⟩
          = List.range' (i * T.VectorWidth) T.VectorWidth
        ∧ ∀ k, k < T.VectorWidth →
            VecIterator.deref T.VectorWidth data ⟨i⟩ k = data (i * T.VectorWidth + k))
    ∧ (((OpaqueStore.execState T ML DL dataPtr data ldm).issued.map
          (Transaction.elements T.VectorWidth)).flatten = List.range T.UnpackedSize)
    ∧ (∀ e, e < T.UnpackedSize →
        ∃! t, t ∈ (OpaqueStore.execState T ML DL dataPtr data ldm).issued
          ∧ e ∈ Transaction.elements T.VectorWidth t) := by
  have hpos : 0 < T.VectorWidth := hasserts.1
  rw [OpaqueStore.issued_eq]
  refine ⟨by simp, ?_, ?_, ?_⟩
  · intro i hi
    refine ⟨?_, rfl, fun k _ => rfl⟩
    rw [List.getElem?_map, List.getElem?_range hi]
    rfl
  · rw [elements_flatten, hsize]
  · intro e he
    have hdiv : e / T.VectorWidth < T.IOCount := by
      rw [Nat.div_lt_iff_lt_mul hpos, hsize]
      exact he
    refine ⟨⟨off ML DL ldm (e / T.VectorWidth), e / T.VectorWidth⟩, ⟨?_, ?_⟩, ?_⟩
    · exact List.mem_map.mpr ⟨e / T.VectorWidth, List.mem_range.mpr hdiv, rfl⟩
    · simp only [Transaction.elements, List.mem_range'_1]
      have h1 := Nat.div_mul_le_self e T.VectorWidth
      have h2 := Nat.lt_div_mul_add (a := e) hpos
      omega
    · rintro t ⟨ht, hmem⟩
      obtain ⟨i, _, rfl⟩ := List.mem_map.mp ht
      simp only [Transaction.elements, List.mem_range'_1] at hmem
      have hi : i = e / T.VectorWidth := by
        symm
        apply Nat.div_eq_of_lt_le
        · exact hmem.1
        · rw [Nat.succ_mul]; exact hmem.2
      rw [hi]

/-! ## The launch grid of the host driver -/

/-- Every call of the driver but the last launches enough waves for the three
complete matrices. -/
theorem test_load_store_matrix_h.others_whole :
    ∀ c ∈ test_load_store_matrix_h.configs,
      c ≠ test_load_store_matrix_h.largeK → c.roundTripsWhole := by
  decide

/-- C10, at the last call of the driver, `<256, 1, 64, 64, 64>(512, 128, 8192)`:
the grid is 2 x 2 blocks of 4 waves, 16 waves in all, which store
`16 * 64 * 64 = 65536` elements of A and of B, fewer than the `512 * 8192`
elements of A and the `8192 * 128` elements of B that are compared. -/
theorem test_load_store_matrix_h.largeK_not_whole :
    test_load_store_matrix_h.largeK ∈ test_load_store_matrix_h.configs
    ∧ test_load_store_matrix_h.largeK.gridDim = (2, 2)
    ∧ test_load_store_matrix_h.largeK.waves = 16
    ∧ test_load_store_matrix_h.largeK.waves * 64 * 64 = 65536
    ∧ 65536 < 512 * 8192
    ∧ 65536 < 8192 * 128
    ∧ ¬ test_load_store_matrix_h.largeK.roundTripsWhole := by
  decide

/-! ## The theorems at concrete inputs -/

/-- In the small instantiation stored row-major with leading dimension 4, the
two transactions write `[0, 2)` and `[4, 6)`. -/
theorem sample_disjoint :
    ∀ i, i < sampleTraits.IOCount → ∀ j, j < sampleTraits.IOCount → i ≠ j →
      ∀ p, ¬ (inRange sampleTraits sampleLayout Layout.row_major.dataLayout 4 i p
        ∧ inRange sampleTraits sampleLayout Layout.row_major.dataLayout 4 j p) := by
  have h0 : off sampleLayout Layout.row_major.dataLayout 4 0 = 0 := by decide
  have h1 : off sampleLayout Layout.row_major.dataLayout 4 1 = 4 := by decide
  have hw : sampleTraits.VectorWidth = 2 := rfl
  intro i hi j hj hij p hp
  have hi2 : i < 2 := hi
  have hj2 : j < 2 := hj
  unfold inRange at hp
  rw [hw] at hp
  interval_cases i <;> interval_cases j <;> simp only [h0, h1] at hp <;> omega

/-- C1 at the small instantiation: memory offsets 4 and 5 receive buffer
elements 2 and 3, that is 12 and 13. -/
theorem OpaqueStore.exec_writes_slices_witness :
    OpaqueStore.exec sampleTraits sampleLayout Layout.row_major.dataLayout
        sampleMemory sampleData 4 4 = 12
    ∧ OpaqueStore.exec sampleTraits sampleLayout Layout.row_major.dataLayout
        sampleMemory sampleData 4 5 = 13 :=
  ⟨OpaqueStore.exec_writes_slices sampleTraits sampleLayout Layout.row_major.dataLayout
      sampleMemory sampleData 4 sample_disjoint 1 (by decide) 0 (by decide),
   OpaqueStore.exec_writes_slices sampleTraits sampleLayout Layout.row_major.dataLayout
      sampleMemory sampleData 4 sample_disjoint 1 (by decide) 1 (by decide)⟩

/-- C5 at the small instantiation stored column-major, where the two ranges
`[0, 2)` and `[1, 3)` overlap: offset 2 holds the scalar 7. -/
theorem fill_then_store_witness :
    sampleTraits.IOCount * sampleTraits.VectorWidth = sampleTraits.UnpackedSize
    ∧ OpaqueStore.exec sampleTraits sampleLayout Layout.col_major.dataLayout sampleMemory
        (fill_fragment sampleTraits sampleData 7) 4 2 = 7 :=
  ⟨by decide,
   fill_then_store sampleTraits (by decide) sampleLayout Layout.col_major
      sampleMemory sampleData 7 4 1 (by decide) 1 (by decide)⟩

/-- C6 at leading dimension 4: (0, 1) and (1, 0) have distinct row-major offsets. -/
theorem Layout.fromMatrixCoord_injective_witness :
    Layout.fromMatrixCoord Layout.row_major ⟨0, 1⟩ 4
      ≠ Layout.fromMatrixCoord Layout.row_major ⟨1, 0⟩ 4 :=
  Layout.fromMatrixCoord_injective Layout.row_major 4 ⟨0, 1⟩ ⟨1, 0⟩
    (by decide) (by decide) (by decide)

/-- C7 at the large-K sizes: the last coordinate of the column-major
`512 x 8192` matrix A lies inside the `512 * 8192` allocated elements. -/
theorem driver_offsets_in_bounds_witness :
    (512 * 8192 < 4294967296 ∧ 8192 * 128 < 4294967296 ∧ 512 * 128 < 4294967296)
    ∧ 0 ≤ Layout.fromMatrixCoord Layout.col_major ⟨511, 8191⟩
        (lda Layout.col_major 512 128 8192)
    ∧ Layout.fromMatrixCoord Layout.col_major ⟨511, 8191⟩
        (lda Layout.col_major 512 128 8192) < sizeA 512 128 8192 :=
  ⟨by decide,
   (driver_offsets_in_bounds Layout.col_major Layout.row_major Layout.row_major 512 128 8192
      (by decide) (by decide) (by decide)).1 511 8191 (by decide) (by decide)⟩

/-- C8 at the small instantiation: two transactions, covering buffer elements
0, 1, 2, 3 in order. -/
theorem OpaqueStore.exec_issues_each_element_once_witness :
    (OpaqueStore.static_asserts sampleTraits
      ∧ sampleTraits.IOCount * sampleTraits.VectorWidth = sampleTraits.UnpackedSize)
    ∧ (OpaqueStore.execState sampleTraits sampleLayout Layout.row_major.dataLayout
        sampleMemory sampleData 4).issued.length = 2
    ∧ ((OpaqueStore.execState sampleTraits sampleLayout Layout.row_major.dataLayout
        sampleMemory sampleData 4).issued.map (Transaction.elements 2)).flatten
        = [0, 1, 2, 3] :=
  ⟨by decide,
   (OpaqueStore.exec_issues_each_element_once sampleTraits sampleLayout
      Layout.row_major.dataLayout sampleMemory sampleData 4 (by decide) (by decide)).1,
   (OpaqueStore.exec_issues_each_element_once sampleTraits sampleLayout
      Layout.row_major.dataLayout sampleMemory sampleData 4 (by decide) (by decide)).2.2.1⟩

/-- C9 at the large-K sizes: the last coordinate of the row-major
`512 x 8192` matrix A has the same offset in 32-bit and in exact arithmetic. -/
theorem driver_offsets_no_overflow_witness :
    Layout.fromMatrixCoord_u32 Layout.row_major ⟨511, 8191⟩
        (lda Layout.row_major 512 128 8192)
      = Layout.fromMatrixCoord Layout.row_major ⟨511, 8191⟩
        (lda Layout.row_major 512 128 8192) :=
  (driver_offsets_no_overflow Layout.row_major Layout.row_major Layout.row_major 512 128 8192
    (Or.inr rfl)).1 511 8191 (by decide) (by decide)

/-! ## The increment after the last transaction -/

section LastIncrement

variable {α C : Type} [Add C]

/-- The coordinate of transaction `i` depends on the increments below `i` only. -/
theorem coord_congr (ML1 ML2 : MatrixLayout C) (i : Nat)
    (hbase : ML1.baseOffset = ML2.baseOffset)
    (hinc : ∀ j, j < i → ML1.incrementalOffset j = ML2.incrementalOffset j) :
    coord ML1 i = coord ML2 i := by
  induction i with
  | zero => exact hbase
  | succ i ih =>
    simp only [coord]
    rw [ih (fun j hj => hinc j (Nat.lt_succ_of_lt hj)), hinc i (Nat.lt_succ_self i)]

/-- The memory after `n` transactions depends on the offsets below `n` only. -/
theorem storeSeq_congr (T : IOTraits) (ML1 ML2 : MatrixLayout C) (DL : DataLayout C)
    (dataPtr data : Nat → α) (ldm n : Nat)
    (hoff : ∀ i, i < n → off ML1 DL ldm i = off ML2 DL ldm i) :
    storeSeq T ML1 DL dataPtr data ldm n = storeSeq T ML2 DL dataPtr data ldm n := by
  induction n with
  | zero => rfl
  | succ n ih =>
    simp only [storeSeq]
    rw [ih (fun i hi => hoff i (Nat.lt_succ_of_lt hi)), hoff n (Nat.lt_succ_self n)]

/-- C11: two matrix layouts with the same `baseOffset()` whose
`incrementalOffset` agree on every index below `IOCount - 1` (they may differ
at `IOCount - 1` and beyond) make `OpaqueStore::exec` produce the same final
memory from the same initial memory, buffer and leading dimension. -/
theorem OpaqueStore.exec_last_increment_unused (T : IOTraits) (ML1 ML2 : MatrixLayout C)
    (DL : DataLayout C) (dataPtr data : Nat → α) (ldm : Nat)
    (hbase : ML1.baseOffset = ML2.baseOffset)
    (hinc : ∀ j, j < T.IOCount - 1 → ML1.incrementalOffset j = ML2.incrementalOffset j) :
    OpaqueStore.exec T ML1 DL dataPtr data ldm = OpaqueStore.exec T ML2 DL dataPtr data ldm := by
  rw [OpaqueStore.exec_eq_storeSeq, OpaqueStore.exec_eq_storeSeq]
  apply storeSeq_congr
  intro i hi
  simp only [off]
  rw [coord_congr ML1 ML2 i hbase (fun j hj => hinc j (by omega))]

end LastIncrement

/-! ## Colliding transactions -/

section Collide

variable {α C : Type} [Add C]

/-- Among the first `n` transactions, an offset that some range holds has a
last range that holds it. -/
theorem exists_last_inRange (T : IOTraits) (ML : MatrixLayout C) (DL : DataLayout C)
    (ldm n p : Nat) (h : ∃ i, i < n ∧ inRange T ML DL ldm i p) :
    ∃ j, j < n ∧ inRange T ML DL ldm j p
      ∧ ∀ l, j < l → l < n → ¬ inRange T ML DL ldm l p := by
  induction n with
  | zero =>
    obtain ⟨i, hi, _⟩ := h
    exact absurd hi (Nat.not_lt_zero i)
  | succ n ih =>
    by_cases hn : inRange T ML DL ldm n p
    · exact ⟨n, Nat.lt_succ_self n, hn, fun l hl hln => absurd hln (by omega)⟩
    · obtain ⟨i, hi, hip⟩ := h
      have hlt : i < n := by
        rcases Nat.lt_succ_iff_lt_or_eq.mp hi with hlt | heq
        · exact hlt
        · subst heq; exact absurd hip hn
      obtain ⟨j, hj, hjp, hlast⟩ := ih ⟨i, hlt, hip⟩
      refine ⟨j, Nat.lt_succ_of_lt hj, hjp, ?_⟩
      intro l hjl hl
      rcases Nat.lt_succ_iff_lt_or_eq.mp hl with hln | heq
      · exact hlast l hjl hln
      · subst heq; exact hn

/-- C12: when the ranges of two iterations `i < j < IOCount` share an offset
`p` that no iteration after `j` writes, then after `OpaqueStore::exec` the
memory at `p` holds `data[j * VectorWidth + (p - off j)]`, the element of slice
`j`; and every written offset holds the element carried by the highest-index
iteration whose range contains it. -/
theorem OpaqueStore.exec_later_wins (T : IOTraits) (ML : MatrixLayout C) (DL : DataLayout C)
    (dataPtr data : Nat → α) (ldm : Nat) :
    (∀ i j p, i < j → j < T.IOCount →
      inRange T ML DL ldm i p → inRange T ML DL ldm j p →
      (∀ l, j < l → l < T.IOCount → ¬ inRange T ML DL ldm l p) →
      OpaqueStore.exec T ML DL dataPtr data ldm p
        = data (j * T.VectorWidth + (p - off ML DL ldm j)))
    ∧ (∀ p, (∃ i, i < T.IOCount ∧ inRange T ML DL ldm i p) →
      ∃ j, j < T.IOCount ∧ inRange T ML DL ldm j p
        ∧ (∀ l, j < l → l < T.IOCount → ¬ inRange T ML DL ldm l p)
        ∧ OpaqueStore.exec T ML DL dataPtr data ldm p
          = data (j * T.VectorWidth + (p - off ML DL ldm j))) := by
  refine ⟨?_, ?_⟩
  · intro i j p _ hj _ hjp hlast
    rw [OpaqueStore.exec_eq_storeSeq]
    exact storeSeq_last T ML DL dataPtr data ldm T.IOCount j p hj hjp hlast
  · intro p hp
    obtain ⟨j, hj, hjp, hlast⟩ := exists_last_inRange T ML DL ldm T.IOCount p hp
    refine ⟨j, hj, hjp, hlast, ?_⟩
    rw [OpaqueStore.exec_eq_storeSeq]
    exact storeSeq_last T ML DL dataPtr data ldm T.IOCount j p hj hjp hlast

end Collide

/-- C11 at the small instantiation: `sampleLayout` and `sampleLayoutAlt` differ
in the increment after the last transaction, and the stored memory is the same. -/
theorem OpaqueStore.exec_last_increment_unused_witness :
    sampleLayout.incrementalOffset 1 ≠ sampleLayoutAlt.incrementalOffset 1
    ∧ OpaqueStore.exec sampleTraits sampleLayout Layout.row_major.dataLayout
        sampleMemory sampleData 4
      = OpaqueStore.exec sampleTraits sampleLayoutAlt Layout.row_major.dataLayout
        sampleMemory sampleData 4 :=
  ⟨by decide,
   OpaqueStore.exec_last_increment_unused sampleTraits sampleLayout sampleLayoutAlt
      Layout.row_major.dataLayout sampleMemory sampleData 4 rfl
      (fun j hj => by
        have hj1 : j < 1 := hj
        have hj0 : j = 0 := by omega
        subst hj0
        rfl)⟩

/-- C12 at the small instantiation stored column-major, where the ranges
`[0, 2)` and `[1, 3)` share offset 1: the memory there holds 12, element 0 of
slice 1, and not 11, element 1 of slice 0. -/
theorem OpaqueStore.exec_later_wins_witness :
    OpaqueStore.exec sampleTraits sampleLayout Layout.col_major.dataLayout
        sampleMemory sampleData 4 1 = 12
    ∧ sampleData (0 * sampleTraits.VectorWidth + 1) = 11 :=
  ⟨(OpaqueStore.exec_later_wins sampleTraits sampleLayout Layout.col_major.dataLayout
      sampleMemory sampleData 4).1 0 1 1 (by decide) (by decide) (by decide) (by decide)
      (fun l hl hln => by
        have hln2 : l < 2 := hln
        omega),
   rfl⟩

end rocwmma
